import Mathlib

/-!
Shallow embedding of the pywordle game engine (src/pywordle/wordle.py)
and of the legacy implementation (src/wordle.py), with theorems checking
the specification's claims.

Modelling conventions: Python strings are Lean strings (their character
lists where the code iterates over characters); the Counter object used
by grade_guess is a function from characters to integers (a Counter
lookup of a missing key yields 0); a Python IndexError raised by an
out-of-bounds string index is modelled by an Option result, with none
standing for the raised error.
-/

/-- Python str.upper applied character by character, as used on the
ASCII words and guesses of the game. -/
def upper (s : String) : String := String.mk (s.data.map Char.toUpper)

/-- State of a Wordle game as stored by Wordle.__init__ in
src/pywordle/wordle.py: the answers word list, the allowed-guess
dictionary (guesses file entries plus the answers), the guess history,
the attempt limit and the answer. -/
structure Wordle where
  words : List String
  dictionary : List String
  guesses : List String
  max_guess_attempts : Nat
  answer : String
deriving DecidableEq

/-- The completed property of src/pywordle/wordle.py line 83:
len(guesses) >= max_guess_attempts. -/
def Wordle.completed (w : Wordle) : Bool :=
  decide (w.guesses.length ≥ w.max_guess_attempts)

/-- The winner property of src/pywordle/wordle.py line 93:
answer in guesses. -/
def Wordle.winner (w : Wordle) : Bool :=
  decide (w.answer ∈ w.guesses)

/-- Wordle.validate_guess of src/pywordle/wordle.py lines 190-202:
true when the game is not completed and the guess is a dictionary
member, false otherwise. -/
def Wordle.validate_guess (w : Wordle) (guess : String) : Bool :=
  !w.completed && decide (guess ∈ w.dictionary)

/-- Wordle.make_guess of src/pywordle/wordle.py lines 173-188:
uppercases the guess, and when validate_guess accepts it appends it to
the history and returns True, otherwise returns False leaving the state
unchanged.  The Bool result and the post state are returned as a pair. -/
def Wordle.make_guess (w : Wordle) (guess : String) : Bool × Wordle :=
  let g := upper guess
  if w.validate_guess g then
    (true, Wordle.mk w.words w.dictionary (w.guesses ++ [g]) w.max_guess_attempts w.answer)
  else
    (false, w)

/-- Python random.choice on a word list, modelled by an arbitrary index
reduced modulo the length.  random.choice raises IndexError on an empty
list; the default value of getD is only reached in that case, so the
model is used under a nonempty hypothesis. -/
def choice (l : List String) (i : Nat) : String :=
  l.getD (i % l.length) ""

/-- Wordle.__init__ of src/pywordle/wordle.py lines 21-29, for given
word lists: None arguments are Option none; the guesses argument is
uppercased; max_guess_attempts defaults to 6; the answer argument is
kept (uppercased) only when it is not None, has length 5 and its
uppercase form is in the answers list, otherwise random.choice picks
from the answers list (modelled by the index pick). -/
def Wordle.init (words dictionary : List String) (guesses : Option (List String))
    (max_guess_attempts : Option Nat) (answer : Option String) (pick : Nat) : Wordle :=
  Wordle.mk words dictionary
    (match guesses with
     | some gs => gs.map upper
     | none => [])
    (match max_guess_attempts with
     | some m => m
     | none => 6)
    (match answer with
     | some a => if a.length = 5 ∧ upper a ∈ words then upper a else choice words pick
     | none => choice words pick)

/-- The Counter built on src/pywordle/wordle.py line 125: occurrence
counts of each character of the answer, 0 for characters not present. -/
def counter (answer : List Char) (c : Char) : Int :=
  (answer.count c : Int)

/-- One Counter decrement: letter_count[c] -= 1. -/
def decr (cnt : Char → Int) (c : Char) : Char → Int :=
  fun d => if d = c then cnt d - 1 else cnt d

/-- First pass of grade_guess (src/pywordle/wordle.py lines 128-131):
positions are scanned left to right; an exact match is recorded as
some (letter, 2) and decrements the letter's count, any other position
stays unassigned (none).  answer[i] is read at every position, so a
guess longer than the answer raises IndexError, modelled by none. -/
def pass1 : List Char → List Char → (Char → Int) →
    Option (List (Option (Char × Nat)) × (Char → Int))
  | [], _, cnt => some ([], cnt)
  | _ :: _, [], _ => none
  | c :: cs, a :: as', cnt =>
    if c = a then
      (pass1 cs as' (decr cnt c)).map (fun r => (some (c, 2) :: r.1, r.2))
    else
      (pass1 cs as' cnt).map (fun r => (none :: r.1, r.2))

/-- Second pass of grade_guess (src/pywordle/wordle.py lines 134-140):
a position whose letter occurs in the answer, differs from the answer's
letter at that position and still has a positive remaining count is
graded (letter, 1) and decrements the count; otherwise an unassigned
position is graded (letter, 0) and an assigned one keeps its grade.
answer[i] is read only after the membership test succeeds; reading past
the end of the answer is modelled by none (unreachable after pass1). -/
def pass2 (full : List Char) : List (Option (Char × Nat)) → List Char → List Char →
    (Char → Int) → Option (List (Char × Nat))
  | [], _, _, _ => some []
  | _ :: _, [], _, _ => some []
  | d :: ds, c :: cs, ans, cnt =>
    if c ∈ full then
      match ans with
      | [] => none
      | a :: as' =>
        if c ≠ a ∧ 0 < cnt c then
          (pass2 full ds cs as' (decr cnt c)).map (fun r => (c, 1) :: r)
        else
          match d with
          | none => (pass2 full ds cs as' cnt).map (fun r => (c, 0) :: r)
          | some v => (pass2 full ds cs as' cnt).map (fun r => v :: r)
    else
      match d with
      | none => (pass2 full ds cs ans.tail cnt).map (fun r => (c, 0) :: r)
      | some v => (pass2 full ds cs ans.tail cnt).map (fun r => v :: r)

/-- Wordle.grade_guess of src/pywordle/wordle.py lines 115-142 on
character lists: the two passes over the input against the answer,
starting from the answer's letter counts. -/
def grade_chars (answer input : List Char) : Option (List (Char × Nat)) :=
  match pass1 input answer (counter answer) with
  | none => none
  | some r => pass2 answer r.1 input answer r.2

/-- Wordle.grade_guess on the stored game state. -/
def Wordle.grade_guess (w : Wordle) (input : String) : Option (List (Char × Nat)) :=
  grade_chars w.answer.toList input.toList

/-- Modelled from the spec, section 4.2 pass 1: for each position, an
exact match is assigned Correct (grade 2) and decrements the remaining
count for that letter; other positions stay unassigned. -/
def pass1Spec : List Char → List Char → (Char → Int) →
    List (Option (Char × Nat)) × (Char → Int)
  | [], _, cnt => ([], cnt)
  | _ :: _, [], cnt => ([], cnt)
  | c :: cs, a :: as', cnt =>
    if c = a then
      let r := pass1Spec cs as' (decr cnt c)
      (some (c, 2) :: r.1, r.2)
    else
      let r := pass1Spec cs as' cnt
      (none :: r.1, r.2)

/-- Modelled from the spec, section 4.2 pass 2: positions not already
assigned are scanned left to right and graded Present (1) exactly when
the remaining count of the letter is still positive, decrementing it,
and Absent (0) otherwise. -/
def pass2Spec : List (Option (Char × Nat)) → List Char → (Char → Int) →
    List (Char × Nat)
  | [], _, _ => []
  | _ :: _, [], _ => []
  | d :: ds, c :: cs, cnt =>
    match d with
    | some v => v :: pass2Spec ds cs cnt
    | none =>
      if 0 < cnt c then (c, 1) :: pass2Spec ds cs (decr cnt c)
      else (c, 0) :: pass2Spec ds cs cnt

/-- Modelled from the spec, section 4.2: the two-pass multiset grading
algorithm exactly as the spec describes it, starting from the answer's
per-letter occurrence counts. -/
def gradeSpec (answer input : List Char) : List (Char × Nat) :=
  let r := pass1Spec input answer (counter answer)
  pass2Spec r.1 input r.2

/-- The exact-match marking produced by pass 1: some (letter, 2) where
guess and answer agree, none elsewhere. -/
def mark : List Char → List Char → List (Option (Char × Nat))
  | [], _ => []
  | _ :: _, [] => []
  | c :: cs, a :: as' =>
    (if c = a then some (c, 2) else none) :: mark cs as'

/-- Number of positions at which guess and answer both hold the
letter x (the exact matches for x). -/
def matched : List Char → List Char → Char → Nat
  | [], _, _ => 0
  | _ :: _, [], _ => 0
  | c :: cs, a :: as', x =>
    (if c = a ∧ c = x then 1 else 0) + matched cs as' x

/-- Whether a graded letter is an occurrence of L marked Present or
Correct. -/
def isScored (L : Char) (p : Char × Nat) : Bool :=
  p.1 == L && (p.2 == 1 || p.2 == 2)

/-- Number of occurrences of the letter L graded Present or Correct in
a graded list. -/
def scoredCount (out : List (Char × Nat)) (L : Char) : Nat :=
  out.countP (isScored L)

/-- Whether an assignment-list entry is an exact match of the letter L. -/
def markScore (L : Char) (d : Option (Char × Nat)) : Bool :=
  match d with
  | some v => v.1 == L
  | none => false

/-- Wordle.make_guess of the legacy src/wordle.py lines 118-127: the
uppercased guess is appended to the history unconditionally. -/
def Wordle.legacy_make_guess (w : Wordle) (guess : String) : Wordle :=
  Wordle.mk w.words w.dictionary (w.guesses ++ [upper guess]) w.max_guess_attempts w.answer

/-- The colour grades assigned by the legacy single-pass
Wordle.colorize (src/wordle.py lines 142-163), with green as 2, yellow
as 1 and grey as 0: the loop runs over i in range(5); letters[i] raises
IndexError (none) when the input is shorter than 5, and answer[i] is
read only when letters[i] occurs in the answer. -/
def legacy_colorize_go (full : List Char) : Nat → List Char → List Char →
    Option (List (Char × Nat))
  | 0, _, _ => some []
  | _ + 1, [], _ => none
  | n + 1, c :: cs, ans =>
    if c ∈ full then
      match ans with
      | [] => none
      | a :: as' =>
        (legacy_colorize_go full n cs as').map
          (fun r => (c, if c = a then 2 else 1) :: r)
    else
      (legacy_colorize_go full n cs ans.tail).map (fun r => (c, 0) :: r)

/-- The legacy single-pass grading of an input against an answer. -/
def legacy_colorize (answer input : List Char) : Option (List (Char × Nat)) :=
  legacy_colorize_go answer 5 input answer

/-- String.toList preserves length (both are the data list length). -/
theorem toList_length (s : String) : s.toList.length = s.length := rfl

/-- A decremented count is bounded by the original count. -/
theorem decr_le (cnt : Char → Int) (c x : Char) : decr cnt c x ≤ cnt x := by
  unfold decr
  split <;> omega

/-- Positivity of a decremented count gives positivity of the original. -/
theorem decr_pos {cnt : Char → Int} {c x : Char} (h : 0 < decr cnt c x) : 0 < cnt x :=
  lt_of_lt_of_le h (decr_le cnt c x)

/-- Reading the count of a letter untouched by a decrement. -/
theorem decr_ne {cnt : Char → Int} {c x : Char} (h : x ≠ c) : decr cnt c x = cnt x := by
  simp [decr, h]

/-- The source pass 1 succeeds and agrees with the spec pass 1 whenever
the input is no longer than the answer. -/
theorem pass1_eq_spec : ∀ (input ans : List Char) (cnt : Char → Int),
    input.length ≤ ans.length →
    pass1 input ans cnt = some (pass1Spec input ans cnt)
  | [], ans, cnt, _ => by simp [pass1, pass1Spec]
  | c :: cs, [], cnt, h => by simp at h
  | c :: cs, a :: as', cnt, h => by
    have h' : cs.length ≤ as'.length := by simpa using h
    by_cases hca : c = a
    · simp [pass1, pass1Spec, hca, pass1_eq_spec cs as' (decr cnt a) h']
    · simp [pass1, pass1Spec, hca, pass1_eq_spec cs as' cnt h']

/-- The source pass 1 raises IndexError (none) whenever the input is
longer than the answer. -/
theorem pass1_none : ∀ (input ans : List Char) (cnt : Char → Int),
    ans.length < input.length →
    pass1 input ans cnt = none
  | [], ans, cnt, h => by simp at h
  | c :: cs, [], cnt, _ => by simp [pass1]
  | c :: cs, a :: as', cnt, h => by
    have h' : as'.length < cs.length := by simpa using h
    by_cases hca : c = a
    · simp [pass1, hca, pass1_none cs as' (decr cnt a) h']
    · simp [pass1, hca, pass1_none cs as' cnt h']

/-- The assignment list produced by the spec pass 1 is the exact-match
marking. -/
theorem pass1Spec_fst : ∀ (input ans : List Char) (cnt : Char → Int),
    (pass1Spec input ans cnt).1 = mark input ans
  | [], ans, cnt => by simp [pass1Spec, mark]
  | c :: cs, [], cnt => by simp [pass1Spec, mark]
  | c :: cs, a :: as', cnt => by
    by_cases hca : c = a
    · simp [pass1Spec, mark, hca, pass1Spec_fst cs as' (decr cnt a)]
    · simp [pass1Spec, mark, hca, pass1Spec_fst cs as' cnt]

/-- The count left by the spec pass 1: the initial count minus the
number of exact matches of each letter. -/
theorem pass1Spec_snd : ∀ (input ans : List Char) (cnt : Char → Int) (x : Char),
    (pass1Spec input ans cnt).2 x = cnt x - matched input ans x
  | [], ans, cnt, x => by simp [pass1Spec, matched]
  | c :: cs, [], cnt, x => by simp [pass1Spec, matched]
  | c :: cs, a :: as', cnt, x => by
    by_cases hca : c = a
    · rw [show pass1Spec (c :: cs) (a :: as') cnt =
          (some (c, 2) :: (pass1Spec cs as' (decr cnt c)).1,
           (pass1Spec cs as' (decr cnt c)).2) by simp [pass1Spec, hca]]
      rw [pass1Spec_snd cs as' (decr cnt c) x]
      by_cases hx : x = c
      · subst hx
        simp [matched, decr, hca]
        omega
      · rw [decr_ne hx]
        simp only [matched]
        have : ¬(c = a ∧ c = x) := by
          intro hc
          exact hx (hc.2.symm)
        rw [if_neg this]
        omega
    · rw [show pass1Spec (c :: cs) (a :: as') cnt =
          (none :: (pass1Spec cs as' cnt).1, (pass1Spec cs as' cnt).2) by
            simp [pass1Spec, hca]]
      rw [pass1Spec_snd cs as' cnt x]
      simp only [matched]
      have : ¬(c = a ∧ c = x) := fun hc => hca hc.1
      rw [if_neg this]
      omega

/-- The source pass 2 succeeds and agrees with the spec pass 2 when the
assignment list is the exact-match marking, the answer suffix letters
all occur in the full answer, and positive counts only name letters of
the full answer (all of which hold after pass 1). -/
theorem pass2_mark_eq_spec (full : List Char) :
    ∀ (input ans : List Char) (cnt : Char → Int),
      input.length ≤ ans.length →
      (∀ x ∈ ans, x ∈ full) →
      (∀ x, 0 < cnt x → x ∈ full) →
      pass2 full (mark input ans) input ans cnt =
        some (pass2Spec (mark input ans) input cnt)
  | [], ans, cnt, _, _, _ => by simp [mark, pass2, pass2Spec]
  | c :: cs, [], cnt, h, _, _ => by simp at h
  | c :: cs, a :: as', cnt, h, hans, hcnt => by
    have hlen : cs.length ≤ as'.length := by simpa using h
    have hans' : ∀ x ∈ as', x ∈ full := fun x hx => hans x (List.mem_cons_of_mem _ hx)
    by_cases hca : c = a
    · subst hca
      have hcf : c ∈ full := hans c (List.mem_cons_self c as')
      have ih := pass2_mark_eq_spec full cs as' cnt hlen hans' hcnt
      simp [mark, pass2, pass2Spec, hcf, ih]
    · by_cases hcf : c ∈ full
      · by_cases hpos : 0 < cnt c
        · have hcnt' : ∀ x, 0 < decr cnt c x → x ∈ full :=
            fun x hx => hcnt x (decr_pos hx)
          have ih := pass2_mark_eq_spec full cs as' (decr cnt c) hlen hans' hcnt'
          simp [mark, pass2, pass2Spec, hca, hcf, hpos, ih]
        · have ih := pass2_mark_eq_spec full cs as' cnt hlen hans' hcnt
          simp [mark, pass2, pass2Spec, hca, hcf, hpos, ih]
      · have hpos : ¬0 < cnt c := fun hp => hcf (hcnt c hp)
        have ih := pass2_mark_eq_spec full cs as' cnt hlen hans' hcnt
        simp [mark, pass2, pass2Spec, hca, hcf, hpos, ih]

/-- grade_guess agrees with the spec algorithm whenever the input is no
longer than the answer. -/
theorem grade_chars_eq (answer input : List Char)
    (h : input.length ≤ answer.length) :
    grade_chars answer input = some (gradeSpec answer input) := by
  have h3 : ∀ x, 0 < (pass1Spec input answer (counter answer)).2 x → x ∈ answer := by
    intro x hx
    rw [pass1Spec_snd input answer (counter answer) x] at hx
    have hc : 0 < counter answer x := by omega
    unfold counter at hc
    have : 0 < answer.count x := by exact_mod_cast hc
    exact List.count_pos_iff.mp this
  unfold grade_chars
  rw [pass1_eq_spec input answer (counter answer) h]
  show pass2 answer (pass1Spec input answer (counter answer)).1 input answer
      (pass1Spec input answer (counter answer)).2 = some (gradeSpec answer input)
  show _ = some (pass2Spec (pass1Spec input answer (counter answer)).1 input
      (pass1Spec input answer (counter answer)).2)
  rw [pass1Spec_fst input answer (counter answer)]
  exact pass2_mark_eq_spec answer input answer
    (pass1Spec input answer (counter answer)).2 h (fun x hx => hx) h3

/-- Each Present or Correct mark for a letter L in the spec pass 2
output is paid for either by an exact match recorded in the assignment
list or by the remaining count of L. -/
theorem pass2Spec_scored_le (L : Char) :
    ∀ (ld : List (Option (Char × Nat))) (input : List Char) (cnt : Char → Int),
      scoredCount (pass2Spec ld input cnt) L ≤
        ld.countP (markScore L) + (cnt L).toNat
  | [], input, cnt => by simp [pass2Spec, scoredCount]
  | d :: ds, [], cnt => by simp [pass2Spec, scoredCount]
  | none :: ds, c :: cs, cnt => by
    have hnone : ¬ markScore L none = true := by simp [markScore]
    rw [List.countP_cons_of_neg (markScore L) ds hnone]
    simp only [pass2Spec, scoredCount]
    by_cases hpos : 0 < cnt c
    · rw [if_pos hpos]
      by_cases hcL : c = L
      · have ih := pass2Spec_scored_le L ds cs (decr cnt c)
        have hd : decr cnt c L = cnt L - 1 := by simp [decr, hcL.symm]
        rw [hd] at ih
        rw [hcL] at hpos
        rw [List.countP_cons_of_pos (isScored L) _ (show isScored L (c, 1) = true by
          simp [isScored, hcL])]
        unfold scoredCount at ih
        omega
      · have ih := pass2Spec_scored_le L ds cs (decr cnt c)
        have hd : decr cnt c L = cnt L := decr_ne (fun h => hcL h.symm)
        rw [hd] at ih
        rw [List.countP_cons_of_neg (isScored L) _ (show ¬ isScored L (c, 1) = true by
          simp [isScored, hcL])]
        unfold scoredCount at ih
        omega
    · rw [if_neg hpos]
      have ih := pass2Spec_scored_le L ds cs cnt
      rw [List.countP_cons_of_neg (isScored L) _ (show ¬ isScored L (c, 0) = true by
        simp [isScored])]
      unfold scoredCount at ih
      omega
  | some v :: ds, c :: cs, cnt => by
    have ih := pass2Spec_scored_le L ds cs cnt
    unfold scoredCount at ih ⊢
    rw [show pass2Spec (some v :: ds) (c :: cs) cnt = v :: pass2Spec ds cs cnt from rfl]
    cases hv : (v.1 == L) with
    | true =>
      rw [List.countP_cons_of_pos (markScore L) ds (show markScore L (some v) = true by
        simp [markScore, hv])]
      have h1 : List.countP (isScored L) (v :: pass2Spec ds cs cnt) ≤
          List.countP (isScored L) (pass2Spec ds cs cnt) + 1 := by
        rw [List.countP_cons]
        split <;> omega
      omega
    | false =>
      rw [List.countP_cons_of_neg (markScore L) ds (show ¬ markScore L (some v) = true by
        simp [markScore, hv])]
      rw [List.countP_cons_of_neg (isScored L) _ (show ¬ isScored L v = true by
        simp [isScored, hv])]
      omega

/-- Exact-match entries of the marking counted for a letter L are
exactly the matched positions for L. -/
theorem mark_countP (L : Char) : ∀ (input ans : List Char),
    (mark input ans).countP (markScore L) = matched input ans L
  | [], ans => by simp [mark, matched]
  | c :: cs, [] => by simp [mark, matched]
  | c :: cs, a :: as' => by
    have ih := mark_countP L cs as'
    by_cases hca : c = a
    · have hm : mark (c :: cs) (a :: as') = some (c, 2) :: mark cs as' := by
        simp [mark, hca]
      by_cases hcL : c = L
      · rw [hm, List.countP_cons_of_pos (markScore L) _
          (show markScore L (some (c, 2)) = true by simp [markScore, hcL]),
          show matched (c :: cs) (a :: as') L = 1 + matched cs as' L by
            simp only [matched]
            rw [if_pos (show c = a ∧ c = L from ⟨hca, hcL⟩)]]
        omega
      · rw [hm, List.countP_cons_of_neg (markScore L) _
          (show ¬ markScore L (some (c, 2)) = true by simp [markScore, hcL]),
          show matched (c :: cs) (a :: as') L = matched cs as' L by
            simp only [matched]
            rw [if_neg (show ¬(c = a ∧ c = L) from fun h => hcL h.2)]
            omega]
        exact ih
    · have hm : mark (c :: cs) (a :: as') = none :: mark cs as' := by
        simp [mark, hca]
      rw [hm, List.countP_cons_of_neg (markScore L) _
        (show ¬ markScore L none = true by simp [markScore]),
        show matched (c :: cs) (a :: as') L = matched cs as' L by
          simp only [matched]
          rw [if_neg (show ¬(c = a ∧ c = L) from fun h => hca h.1)]
          omega]
      exact ih

/-- A letter has no more exact matches than occurrences in the answer. -/
theorem matched_le_count (L : Char) : ∀ (input ans : List Char),
    matched input ans L ≤ ans.count L
  | [], ans => by simp [matched]
  | c :: cs, [] => by simp [matched]
  | c :: cs, a :: as' => by
    have ih := matched_le_count L cs as'
    simp only [matched]
    by_cases hm : c = a ∧ c = L
    · have haL : a = L := hm.1.symm.trans hm.2
      rw [if_pos hm, haL, List.count_cons_self]
      omega
    · rw [if_neg hm]
      by_cases haL : a = L
      · rw [haL, List.count_cons_self]
        omega
      · rw [List.count_cons_of_ne (fun h => haL h.symm)]
        omega

/-- The spec pass 2 output keeps the guess letters in place. -/
theorem pass2Spec_map_fst : ∀ (input ans : List Char) (cnt : Char → Int),
    input.length ≤ ans.length →
    (pass2Spec (mark input ans) input cnt).map Prod.fst = input
  | [], ans, cnt, _ => by simp [mark, pass2Spec]
  | c :: cs, [], cnt, h => by simp at h
  | c :: cs, a :: as', cnt, h => by
    have hlen : cs.length ≤ as'.length := by simpa using h
    by_cases hca : c = a
    · have ih := pass2Spec_map_fst cs as' cnt hlen
      simp [mark, pass2Spec, hca, ih]
    · by_cases hpos : 0 < cnt c
      · have ih := pass2Spec_map_fst cs as' (decr cnt c) hlen
        simp [mark, pass2Spec, hca, hpos, ih]
      · have ih := pass2Spec_map_fst cs as' cnt hlen
        simp [mark, pass2Spec, hca, hpos, ih]

/-- Every grade in the spec pass 2 output is 0, 1 or 2. -/
theorem pass2Spec_snd_le : ∀ (input ans : List Char) (cnt : Char → Int)
    (p : Char × Nat), p ∈ pass2Spec (mark input ans) input cnt → p.2 ≤ 2
  | [], ans, cnt, p, hp => by simp [mark, pass2Spec] at hp
  | c :: cs, [], cnt, p, hp => by simp [mark, pass2Spec] at hp
  | c :: cs, a :: as', cnt, p, hp => by
    by_cases hca : c = a
    · simp only [mark, if_pos hca, pass2Spec, List.mem_cons] at hp
      rcases hp with hp | hp
      · subst hp
        omega
      · exact pass2Spec_snd_le cs as' cnt p hp
    · simp only [mark, if_neg hca, pass2Spec] at hp
      by_cases hpos : 0 < cnt c
      · rw [if_pos hpos] at hp
        rcases List.mem_cons.mp hp with hp | hp
        · subst hp
          omega
        · exact pass2Spec_snd_le cs as' (decr cnt c) p hp
      · rw [if_neg hpos] at hp
        rcases List.mem_cons.mp hp with hp | hp
        · subst hp
          omega
        · exact pass2Spec_snd_le cs as' cnt p hp

/-- Correct and Present marks for a letter never exceed the letter's
occurrences in the guess. -/
theorem scored_le_count_input (answer input : List Char) (L : Char)
    (h : input.length ≤ answer.length) :
    scoredCount (gradeSpec answer input) L ≤ input.count L := by
  have hfst : (gradeSpec answer input).map Prod.fst = input := by
    show ((let r := pass1Spec input answer (counter answer);
      pass2Spec r.1 input r.2).map Prod.fst) = input
    rw [show (let r := pass1Spec input answer (counter answer);
      pass2Spec r.1 input r.2) = pass2Spec (pass1Spec input answer (counter answer)).1
        input (pass1Spec input answer (counter answer)).2 from rfl]
    rw [pass1Spec_fst]
    exact pass2Spec_map_fst input answer _ h
  have h1 : scoredCount (gradeSpec answer input) L ≤
      (gradeSpec answer input).countP (fun p => p.1 == L) := by
    apply List.countP_mono_left
    intro p _ hp
    exact (Bool.and_eq_true_iff.mp hp).1
  have h2 : (gradeSpec answer input).countP (fun p => p.1 == L) =
      input.countP (fun c => c == L) :=
    calc (gradeSpec answer input).countP (fun p => p.1 == L)
        = (gradeSpec answer input).countP ((fun c => c == L) ∘ Prod.fst) := rfl
      _ = ((gradeSpec answer input).map Prod.fst).countP (fun c => c == L) :=
          (List.countP_map (fun c => c == L) Prod.fst _).symm
      _ = input.countP (fun c => c == L) := by rw [hfst]
  rw [List.count_eq_countP]
  omega

/-- Correct and Present marks for a letter never exceed the letter's
occurrences in the answer. -/
theorem scored_le_count_answer (answer input : List Char) (L : Char) :
    scoredCount (gradeSpec answer input) L ≤ answer.count L := by
  have hb := pass2Spec_scored_le L (pass1Spec input answer (counter answer)).1 input
    (pass1Spec input answer (counter answer)).2
  rw [pass1Spec_fst, mark_countP] at hb
  have hsnd := pass1Spec_snd input answer (counter answer) L
  have hm := matched_le_count L input answer
  have hcL : counter answer L = (answer.count L : Int) := rfl
  have hgs : gradeSpec answer input = pass2Spec (mark input answer)
      input (pass1Spec input answer (counter answer)).2 := by
    show pass2Spec (pass1Spec input answer (counter answer)).1 input
        (pass1Spec input answer (counter answer)).2 = _
    rw [pass1Spec_fst]
  rw [← hgs] at hb
  omega


/-- C7: with answer CRANE, grade_guess of TRACE returns exactly the
grade sequence Absent, Correct, Correct, Present, Correct, that is the
numeric grades 0, 2, 2, 1, 2. -/
theorem grade_guess_crane_trace :
    (Wordle.mk ["CRANE"] ["CRANE", "TRACE"] [] 6 "CRANE").grade_guess "TRACE" =
      some [('T', 0), ('R', 2), ('A', 2), ('C', 1), ('E', 2)] := by decide

/-- C2: for every 5-letter answer and 5-letter guess, grade_guess
computes exactly the two-pass multiset algorithm described by the spec:
exact matches are graded Correct and consume the letter counts, then
the remaining positions, scanned left to right, are graded Present
exactly when the remaining count of their letter is positive
(decrementing it) and Absent otherwise. -/
theorem grade_guess_eq_specGrade (w : Wordle) (input : String)
    (h1 : w.answer.length = 5) (h2 : input.length = 5) :
    w.grade_guess input = some (gradeSpec w.answer.toList input.toList) := by
  exact grade_chars_eq w.answer.toList input.toList
    (by rw [toList_length, toList_length]; omega)

/-- Witness for C2 at a concrete game and guess. -/
theorem grade_guess_eq_specGrade_witness :
    (Wordle.mk ["SPINE"] ["SPINE"] [] 6 "SPINE").grade_guess "SNAKE" =
      some (gradeSpec "SPINE".toList "SNAKE".toList) :=
  grade_guess_eq_specGrade (Wordle.mk ["SPINE"] ["SPINE"] [] 6 "SPINE") "SNAKE" rfl rfl

/-- C4: for every 5-letter answer, 5-letter guess and letter L, the
number of positions holding L graded Correct or Present is at most the
minimum of the occurrences of L in the guess and in the answer. -/
theorem grade_guess_letter_conservation (w : Wordle) (input : String)
    (h1 : w.answer.length = 5) (h2 : input.length = 5) (L : Char)
    (out : List (Char × Nat)) (hout : w.grade_guess input = some out) :
    scoredCount out L ≤ min (input.toList.count L) (w.answer.toList.count L) := by
  have hle : input.toList.length ≤ w.answer.toList.length := by
    rw [toList_length, toList_length]
    omega
  have hout' : grade_chars w.answer.toList input.toList = some out := hout
  rw [grade_chars_eq w.answer.toList input.toList hle] at hout'
  have hsome := Option.some.inj hout'
  rw [← hsome]
  exact Nat.le_min.mpr
    ⟨scored_le_count_input w.answer.toList input.toList L hle,
     scored_le_count_answer w.answer.toList input.toList L⟩

/-- Witness for C4: with answer ALLOW and guess LLAMA at most one A and
at most two L occurrences are marked Correct or Present. -/
theorem grade_guess_letter_conservation_witness :
    scoredCount [('L', 1), ('L', 2), ('A', 1), ('M', 0), ('A', 0)] 'A' ≤ 1 ∧
    scoredCount [('L', 1), ('L', 2), ('A', 1), ('M', 0), ('A', 0)] 'L' ≤ 2 :=
  ⟨le_trans
      (grade_guess_letter_conservation
        (Wordle.mk ["ALLOW"] ["ALLOW", "LLAMA"] [] 6 "ALLOW") "LLAMA" rfl rfl 'A'
        [('L', 1), ('L', 2), ('A', 1), ('M', 0), ('A', 0)] (by decide))
      (by decide),
   le_trans
      (grade_guess_letter_conservation
        (Wordle.mk ["ALLOW"] ["ALLOW", "LLAMA"] [] 6 "ALLOW") "LLAMA" rfl rfl 'L'
        [('L', 1), ('L', 2), ('A', 1), ('M', 0), ('A', 0)] (by decide))
      (by decide)⟩

/-- C5: the legacy single-pass colorize of src/wordle.py is not
equivalent to the two-pass grade_guess: with answer ALLOW and the
repeated-letter guess LLAMA the single pass marks two occurrences of A
as Correct or Present where the multiset-correct two-pass grader marks
only one (the answer holds a single A). -/
theorem colorize_not_equiv_grade_guess :
    "LLAMA".toList.length = 5 ∧ "LLAMA".toList.count 'L' = 2 ∧
    legacy_colorize "ALLOW".toList "LLAMA".toList =
      some [('L', 1), ('L', 2), ('A', 1), ('M', 0), ('A', 1)] ∧
    grade_chars "ALLOW".toList "LLAMA".toList =
      some [('L', 1), ('L', 2), ('A', 1), ('M', 0), ('A', 0)] ∧
    scoredCount [('L', 1), ('L', 2), ('A', 1), ('M', 0), ('A', 1)] 'A' = 2 ∧
    scoredCount [('L', 1), ('L', 2), ('A', 1), ('M', 0), ('A', 0)] 'A' = 1 ∧
    "ALLOW".toList.count 'A' = 1 := by decide

/-- C9: with a 5-letter stored answer, grade_guess succeeds on every
input of length at most 5, returning one grade in 0..2 per input
letter, and raises IndexError (none) on every longer input. -/
theorem grade_guess_length_bounds (w : Wordle) (input : String)
    (h5 : w.answer.length = 5) :
    (input.length ≤ 5 → ∃ out, w.grade_guess input = some out ∧
        out.length = input.length ∧ ∀ p ∈ out, p.2 = 0 ∨ p.2 = 1 ∨ p.2 = 2) ∧
    (5 < input.length → w.grade_guess input = none) := by
  constructor
  · intro hle
    have hle' : input.toList.length ≤ w.answer.toList.length := by
      rw [toList_length, toList_length]
      omega
    have hgs : gradeSpec w.answer.toList input.toList =
        pass2Spec (mark input.toList w.answer.toList) input.toList
          (pass1Spec input.toList w.answer.toList (counter w.answer.toList)).2 := by
      show pass2Spec (pass1Spec input.toList w.answer.toList (counter w.answer.toList)).1
          input.toList
          (pass1Spec input.toList w.answer.toList (counter w.answer.toList)).2 = _
      rw [pass1Spec_fst]
    refine ⟨gradeSpec w.answer.toList input.toList, ?_, ?_, ?_⟩
    · exact grade_chars_eq w.answer.toList input.toList hle'
    · have hfst := pass2Spec_map_fst input.toList w.answer.toList
        (pass1Spec input.toList w.answer.toList (counter w.answer.toList)).2 hle'
      have hlen2 := congrArg List.length hfst
      rw [List.length_map] at hlen2
      rw [hgs, hlen2, toList_length]
    · intro p hp
      rw [hgs] at hp
      have h2 := pass2Spec_snd_le input.toList w.answer.toList
        (pass1Spec input.toList w.answer.toList (counter w.answer.toList)).2 p hp
      omega
  · intro hgt
    show grade_chars w.answer.toList input.toList = none
    unfold grade_chars
    rw [pass1_none input.toList w.answer.toList (counter w.answer.toList)
      (by rw [toList_length, toList_length]; omega)]

/-- Witness for C9: a 6-letter input makes grade_guess hit the
IndexError branch. -/
theorem grade_guess_length_bounds_witness :
    (Wordle.mk ["CRANE"] ["CRANE"] [] 6 "CRANE").grade_guess "ABCDEF" = none :=
  (grade_guess_length_bounds (Wordle.mk ["CRANE"] ["CRANE"] [] 6 "CRANE") "ABCDEF"
    rfl).2 (by decide)

/-- C1 counterexample: a game whose answer is already in the history
(state Won per the spec) while the attempt limit is not reached is in
the claim's completed state, yet make_guess accepts a dictionary word
and mutates the history. -/
theorem make_guess_completed_counterexample :
    (Wordle.mk ["CRANE"] ["CRANE", "TRACE"] ["CRANE"] 6 "CRANE").answer ∈
      (Wordle.mk ["CRANE"] ["CRANE", "TRACE"] ["CRANE"] 6 "CRANE").guesses ∧
    ((Wordle.mk ["CRANE"] ["CRANE", "TRACE"] ["CRANE"] 6 "CRANE").make_guess
      "TRACE").1 = true ∧
    ((Wordle.mk ["CRANE"] ["CRANE", "TRACE"] ["CRANE"] 6 "CRANE").make_guess
      "TRACE").2.guesses = ["CRANE", "TRACE"] := by decide

/-- C1 (amended): on every game whose history length has reached the
attempt limit, make_guess on any word returns False and leaves the
whole state, in particular the history, unchanged. -/
theorem make_guess_exhausted_fails (w : Wordle) (g : String)
    (h : w.max_guess_attempts ≤ w.guesses.length) :
    w.make_guess g = (false, w) := by
  have hc : w.completed = true := by
    simp only [Wordle.completed, decide_eq_true_eq]
    omega
  simp [Wordle.make_guess, Wordle.validate_guess, hc]

/-- Witness for the amended C1 at a concrete exhausted game. -/
theorem make_guess_exhausted_fails_witness :
    (Wordle.mk ["CRANE"] ["CRANE", "TRACE"] ["AAAAA"] 1 "CRANE").make_guess "TRACE" =
      (false, Wordle.mk ["CRANE"] ["CRANE", "TRACE"] ["AAAAA"] 1 "CRANE") :=
  make_guess_exhausted_fails
    (Wordle.mk ["CRANE"] ["CRANE", "TRACE"] ["AAAAA"] 1 "CRANE") "TRACE" (by decide)

/-- C3 counterexample: a game whose answer is in the history while the
attempt limit is not reached: the claim requires completed to be true
(state Won), but the code returns false. -/
theorem completed_won_counterexample :
    (Wordle.mk ["CRANE"] ["CRANE"] ["CRANE"] 6 "CRANE").answer ∈
      (Wordle.mk ["CRANE"] ["CRANE"] ["CRANE"] 6 "CRANE").guesses ∧
    (Wordle.mk ["CRANE"] ["CRANE"] ["CRANE"] 6 "CRANE").guesses.length <
      (Wordle.mk ["CRANE"] ["CRANE"] ["CRANE"] 6 "CRANE").max_guess_attempts ∧
    (Wordle.mk ["CRANE"] ["CRANE"] ["CRANE"] 6 "CRANE").completed = false := by decide

/-- C3 (amended): completed is true exactly when the history length has
reached the attempt limit; membership of the answer in the history is
reported only by the separate winner property. -/
theorem completed_iff_attempts (w : Wordle) :
    (w.completed = true ↔ w.guesses.length ≥ w.max_guess_attempts) ∧
    (w.winner = true ↔ w.answer ∈ w.guesses) := by
  constructor
  · simp [Wordle.completed]
  · simp [Wordle.winner]

/-- C6: on a game whose attempt limit is not reached, make_guess
succeeds exactly when the uppercased word is a dictionary member; a
non-member leaves the whole state unchanged with result False, and a
member is appended to the history. -/
theorem make_guess_dictionary_membership (w : Wordle) (g : String)
    (h : w.guesses.length < w.max_guess_attempts) :
    ((w.make_guess g).1 = true ↔ upper g ∈ w.dictionary) ∧
    (upper g ∉ w.dictionary → w.make_guess g = (false, w)) ∧
    (upper g ∈ w.dictionary →
      (w.make_guess g).2.guesses = w.guesses ++ [upper g]) := by
  have hc : w.completed = false := by
    simp only [Wordle.completed, decide_eq_false_iff_not]
    omega
  by_cases hm : upper g ∈ w.dictionary
  · simp [Wordle.make_guess, Wordle.validate_guess, hc, hm]
  · simp [Wordle.make_guess, Wordle.validate_guess, hc, hm]

/-- Witness for C6: a fresh game rejects a word outside the
dictionary. -/
theorem make_guess_dictionary_membership_witness :
    (Wordle.mk ["CRANE"] ["CRANE", "TRACE"] [] 6 "CRANE").make_guess "xyzzy" =
      (false, Wordle.mk ["CRANE"] ["CRANE", "TRACE"] [] 6 "CRANE") :=
  (make_guess_dictionary_membership
    (Wordle.mk ["CRANE"] ["CRANE", "TRACE"] [] 6 "CRANE") "xyzzy" (by decide)).2.1
    (by decide)

/-- Membership of the modelled random.choice in a nonempty list. -/
theorem choice_mem (l : List String) (i : Nat) (h : l ≠ []) : choice l i ∈ l := by
  unfold choice
  have hl : 0 < l.length := List.length_pos.mpr h
  have hlt : i % l.length < l.length := Nat.mod_lt _ hl
  rw [List.getD_eq_getElem?_getD, List.getElem?_eq_getElem hlt, Option.getD_some]
  exact List.getElem_mem hlt

/-- C8: for every construction of a game over a nonempty answers list,
the stored answer is a member of the answers list; a caller-supplied
answer is used exactly when it is present, has length 5 and its
uppercase form is in the answers list, and otherwise the random choice
from the answers list is stored instead. -/
theorem init_answer_mem_words (words dictionary : List String)
    (gs : Option (List String)) (ma : Option Nat) (ans : Option String) (pick : Nat)
    (h : words ≠ []) :
    (Wordle.init words dictionary gs ma ans pick).answer ∈ words ∧
    (∀ a, ans = some a → a.length = 5 → upper a ∈ words →
      (Wordle.init words dictionary gs ma ans pick).answer = upper a) ∧
    (∀ a, ans = some a → ¬(a.length = 5 ∧ upper a ∈ words) →
      (Wordle.init words dictionary gs ma ans pick).answer = choice words pick) := by
  refine ⟨?_, ?_, ?_⟩
  · cases ans with
    | none => exact choice_mem words pick h
    | some a =>
      show (if a.length = 5 ∧ upper a ∈ words then upper a else choice words pick) ∈ words
      split_ifs with hcond
      · exact hcond.2
      · exact choice_mem words pick h
  · intro a ha h5 hm
    subst ha
    show (if a.length = 5 ∧ upper a ∈ words then upper a else choice words pick) = upper a
    rw [if_pos ⟨h5, hm⟩]
  · intro a ha hnc
    subst ha
    show (if a.length = 5 ∧ upper a ∈ words then upper a else choice words pick) =
      choice words pick
    rw [if_neg hnc]

/-- Witness for C8: a supplied answer whose uppercase form is not in
the answers list is replaced by a member of the answers list. -/
theorem init_answer_mem_words_witness :
    (Wordle.init ["CRANE"] ["CRANE"] none none (some "hello") 0).answer ∈ ["CRANE"] :=
  (init_answer_mem_words ["CRANE"] ["CRANE"] none none (some "hello") 0 (by decide)).1

/-- C10: the legacy make_guess of src/wordle.py appends the uppercased
input to the history unconditionally: the history always grows by
exactly one element, and in particular a completed game still accepts a
word outside the dictionary, pushing the history past the attempt
limit. -/
theorem legacy_make_guess_unconditional :
    (∀ (w : Wordle) (g : String),
        (w.legacy_make_guess g).guesses = w.guesses ++ [upper g] ∧
        (w.legacy_make_guess g).guesses.length = w.guesses.length + 1) ∧
    ((Wordle.mk ["CRANE"] ["CRANE", "TRACE"] ["AAAAA"] 1 "CRANE").completed = true ∧
     upper "zzzzz" ∉
       (Wordle.mk ["CRANE"] ["CRANE", "TRACE"] ["AAAAA"] 1 "CRANE").dictionary ∧
     ((Wordle.mk ["CRANE"] ["CRANE", "TRACE"] ["AAAAA"] 1 "CRANE").legacy_make_guess
       "zzzzz").guesses = ["AAAAA", "ZZZZZ"] ∧
     (Wordle.mk ["CRANE"] ["CRANE", "TRACE"] ["AAAAA"] 1 "CRANE").max_guess_attempts <
       ((Wordle.mk ["CRANE"] ["CRANE", "TRACE"] ["AAAAA"] 1 "CRANE").legacy_make_guess
         "zzzzz").guesses.length) := by
  constructor
  · intro w g
    constructor
    · rfl
    · simp [Wordle.legacy_make_guess]
  · decide
